import Mathlib

/-!
Verification of the CSV parser core of `source-s3`
(`source_files_abstract/formats/csv_parser.py`).

Byte streams are modelled as `List ℕ` (one `ℕ` per byte; the record
terminator `\n` is byte `10`).  A Python file object positioned at some
offset is the list of bytes not yet consumed; `file.read(n)` is
`take n` / `drop n`.  The unbounded `while` loops of the source are
translated with an explicit fuel argument; every wrapper supplies fuel
that is provably sufficient, and an exhausted-fuel result is a distinct
error value that the lemmas rule out.
-/

namespace CsvParser

/-- `MAX_CHUNK_SIZE = 50.0 * 1024 ** 2` from the source (50 MiB in bytes;
the float value is integral, so `ℕ` comparisons agree with Python's). -/
def MAX_CHUNK_SIZE : ℕ := 50 * 1024 ^ 2

/-- Python's `bytes.find(b"\n")`: index of the first byte `10`,
`none` for Python's `-1`. -/
def find10 : List ℕ → Option ℕ
  | [] => none
  | b :: bs => if b = 10 then some 0 else (find10 bs).map (· + 1)

/-- One record-terminator scan loop of `CsvParser.__find_line_end`.
`left_part` is the accumulator, the stream is the bytes not yet read.
Returns `(left_part[:found], left_part[found:], unread-stream)`; the
third component records the file position and is `[]` at end of stream. -/
def find_line_end_loop : ℕ → List ℕ → List ℕ → Except String (List ℕ × List ℕ × List ℕ)
  | 0, _, _ => .error "out of fuel"
  | fuel + 1, left_part, rest =>
    let chunk := rest.take 1024
    if chunk.isEmpty then .ok ([], [], rest)
    else
      let lp := left_part ++ chunk
      if MAX_CHUNK_SIZE < lp.length then
        .error "incorrect CSV file because same line is more than 50Mb"
      else
        match find10 lp with
        | some found => .ok (lp.take found, lp.drop found, rest.drop 1024)
        | none => find_line_end_loop fuel lp (rest.drop 1024)

/-- `CsvParser.__find_line_end` on a stream of unread bytes.  Each loop
iteration consumes 1024 bytes, so `rest.length + 1` fuel never runs out. -/
def find_line_end (rest : List ℕ) : Except String (List ℕ × List ℕ × List ℕ) :=
  find_line_end_loop (rest.length + 1) [] rest

/-- Length of the leading run of bytes with no record terminator:
the index of the first `\n`, or the whole length when there is none. -/
def unterminatedRun (s : List ℕ) : ℕ :=
  (find10 s).getD s.length

/- ### Basic list lemmas -/

theorem take_len_append (a b : List ℕ) : (a ++ b).take a.length = a := by
  induction a with
  | nil => rfl
  | cons x xs ih => simp [ih]

theorem drop_len_append (a b : List ℕ) : (a ++ b).drop a.length = b := by
  induction a with
  | nil => rfl
  | cons x xs ih => simp [ih]

theorem take_eq_of_len (a b : List ℕ) (n : ℕ) (h : a.length = n) :
    (a ++ b).take n = a := by
  subst h; exact take_len_append a b

theorem drop_eq_of_len (a b : List ℕ) (n : ℕ) (h : a.length = n) :
    (a ++ b).drop n = b := by
  subst h; exact drop_len_append a b

theorem isEmpty_false_of_ne_nil {l : List ℕ} (h : l ≠ []) : l.isEmpty = false := by
  cases l with
  | nil => exact absurd rfl h
  | cons x xs => rfl

theorem head?_append_left {l r : List ℕ} (h : l ≠ []) : (l ++ r).head? = l.head? := by
  cases l with
  | nil => exact absurd rfl h
  | cons x xs => rfl

theorem getLast?_append_right (l : List ℕ) {r : List ℕ} (h : r ≠ []) :
    (l ++ r).getLast? = r.getLast? := by
  rw [← List.head?_reverse, ← List.head?_reverse, List.reverse_append]
  exact head?_append_left (by simpa using h)

/- ### find10 lemmas -/

theorem find10_eq_none_iff (xs : List ℕ) : find10 xs = none ↔ 10 ∉ xs := by
  induction xs with
  | nil => simp [find10]
  | cons b bs ih =>
    by_cases hb : b = 10
    · subst hb; simp [find10]
    · simp [find10, hb, Option.map_eq_none', ih, Ne.symm hb]

theorem find10_append_some (a b : List ℕ) (i : ℕ) (h : find10 a = some i) :
    find10 (a ++ b) = some i := by
  induction a generalizing i with
  | nil => simp [find10] at h
  | cons x xs ih =>
    by_cases hx : x = 10
    · subst hx; simp [find10] at h ⊢; exact h
    · simp only [find10, hx, if_false] at h
      cases h2 : find10 xs with
      | none => rw [h2] at h; simp at h
      | some j =>
        rw [h2] at h
        simp at h
        rw [List.cons_append]
        simp only [find10, hx, if_false]
        rw [ih j h2]
        simp [h]

theorem find10_append_none (a b : List ℕ) (h : find10 a = none) :
    find10 (a ++ b) = (find10 b).map (· + a.length) := by
  induction a with
  | nil => simp [find10]
  | cons x xs ih =>
    by_cases hx : x = 10
    · subst hx; simp [find10] at h
    · simp only [find10, hx, if_false] at h
      cases h2 : find10 xs with
      | some j => rw [h2] at h; simp at h
      | none =>
        rw [List.cons_append]
        simp only [find10, hx, if_false]
        rw [ih h2]
        cases h3 : find10 b with
        | some j => simp [List.length_cons]; omega
        | none => simp

theorem find10_spec (xs : List ℕ) (i : ℕ) (h : find10 xs = some i) :
    find10 (xs.take i) = none ∧ (xs.drop i).head? = some 10 ∧ i < xs.length := by
  induction xs generalizing i with
  | nil => simp [find10] at h
  | cons b bs ih =>
    by_cases hb : b = 10
    · subst hb
      simp [find10] at h
      subst h
      simp [find10]
    · simp only [find10, hb, if_false] at h
      cases h2 : find10 bs with
      | none => rw [h2] at h; simp at h
      | some j =>
        rw [h2] at h
        simp at h
        subst h
        obtain ⟨h1, h2', h3⟩ := ih j h2
        refine ⟨?_, by simpa using h2', by simpa using h3⟩
        simp [find10, hb, h1]

theorem find10_take_some (l : List ℕ) (n j : ℕ) (h : find10 (l.take n) = some j) :
    find10 l = some j := by
  have h2 := find10_append_some (l.take n) (l.drop n) j h
  rwa [List.take_append_drop] at h2

theorem find10_some_of_mem_take (s : List ℕ) (n : ℕ) (h : 10 ∈ s.take n) :
    ∃ i, find10 s = some i ∧ i < n := by
  induction s generalizing n with
  | nil => simp at h
  | cons b bs ih =>
    cases n with
    | zero => simp at h
    | succ m =>
      rw [List.take_succ_cons] at h
      by_cases hb : b = 10
      · exact ⟨0, by simp [find10, hb], by omega⟩
      · have h' : 10 ∈ bs.take m := by
          rcases List.mem_cons.mp h with h1 | h1
          · exact absurd h1.symm hb
          · exact h1
        obtain ⟨i, hi, hlt⟩ := ih m h'
        exact ⟨i + 1, by simp [find10, hb, hi], by omega⟩

theorem unterminatedRun_append (a b : List ℕ) (h : find10 a = none) :
    unterminatedRun (a ++ b) = a.length + unterminatedRun b := by
  unfold unterminatedRun
  rw [find10_append_none a b h]
  cases h2 : find10 b with
  | some j => simp; omega
  | none => simp [List.length_append]

theorem unterminatedRun_of_find10 (s : List ℕ) (i : ℕ) (h : find10 s = some i) :
    unterminatedRun s = i := by
  unfold unterminatedRun
  rw [h]
  rfl

theorem find10_append_none_left (a b : List ℕ) (h : find10 (a ++ b) = none) :
    find10 a = none ∧ find10 b = none := by
  rw [find10_eq_none_iff] at h ⊢
  rw [find10_eq_none_iff]
  simp only [List.mem_append] at h
  exact ⟨fun hx => h (Or.inl hx), fun hx => h (Or.inr hx)⟩

/- ### One-step unfolding of the scan loop -/

theorem find_line_end_loop_succ (fuel : ℕ) (left_part rest : List ℕ) :
    find_line_end_loop (fuel + 1) left_part rest =
      if (rest.take 1024).isEmpty then .ok ([], [], rest)
      else
        if MAX_CHUNK_SIZE < (left_part ++ rest.take 1024).length then
          .error "incorrect CSV file because same line is more than 50Mb"
        else
          match find10 (left_part ++ rest.take 1024) with
          | some found => .ok ((left_part ++ rest.take 1024).take found,
                               (left_part ++ rest.take 1024).drop found, rest.drop 1024)
          | none => find_line_end_loop fuel (left_part ++ rest.take 1024) (rest.drop 1024) :=
  rfl

theorem take_cons_isEmpty_false (x : ℕ) (xs : List ℕ) :
    ((x :: xs).take 1024).isEmpty = false := by
  rw [show (1024 : ℕ) = 1023 + 1 from rfl, List.take_succ_cons]
  rfl

/-- If the scan returns a pair and a terminator is in reach, then the pair
splits the consumed bytes exactly at the first terminator. -/
theorem scan_shape (fuel : ℕ) :
    ∀ acc rest l r rest2, find_line_end_loop fuel acc rest = .ok (l, r, rest2) →
    find10 acc = none → 10 ∈ acc ++ rest →
    l ++ (r ++ rest2) = acc ++ rest ∧ find10 l = none ∧ r.head? = some 10 := by
  induction fuel with
  | zero =>
    intro acc rest l r rest2 h _ _
    simp [find_line_end_loop] at h
  | succ n ih =>
    intro acc rest l r rest2 h hacc hmem
    rw [find_line_end_loop_succ] at h
    by_cases hre : rest = []
    · subst hre
      rw [find10_eq_none_iff] at hacc
      simp at hmem
      exact absurd hmem hacc
    · obtain ⟨x, xs, hxe⟩ : ∃ x xs, rest = x :: xs := by
        cases rest with
        | nil => exact absurd rfl hre
        | cons x xs => exact ⟨x, xs, rfl⟩
      rw [hxe, take_cons_isEmpty_false, ← hxe] at h
      simp only [Bool.false_eq_true, if_false] at h
      by_cases hsz : MAX_CHUNK_SIZE < (acc ++ rest.take 1024).length
      · rw [if_pos hsz] at h
        exact absurd h (by simp)
      · rw [if_neg hsz] at h
        cases hf : find10 (acc ++ rest.take 1024) with
        | some found =>
          rw [hf] at h
          simp only [Except.ok.injEq, Prod.mk.injEq] at h
          obtain ⟨h1, h2, h3⟩ := h
          obtain ⟨f1, f2, f3⟩ := find10_spec _ _ hf
          subst h1; subst h2; subst h3
          refine ⟨?_, f1, f2⟩
          rw [← List.append_assoc, List.take_append_drop, List.append_assoc,
            List.take_append_drop]
        | none =>
          rw [hf] at h
          have hmem' : 10 ∈ (acc ++ rest.take 1024) ++ rest.drop 1024 := by
            rw [List.append_assoc, List.take_append_drop]; exact hmem
          have hres := ih _ _ _ _ _ h hf hmem'
          rwa [List.append_assoc, List.take_append_drop] at hres

/-- End of stream before any terminator, within the limit: the scan
returns the empty pair (exhaustion, not an error). -/
theorem scan_exhaust (fuel : ℕ) :
    ∀ acc rest, rest.length < fuel → find10 (acc ++ rest) = none →
    (acc ++ rest).length ≤ MAX_CHUNK_SIZE →
    find_line_end_loop fuel acc rest = .ok ([], [], []) := by
  induction fuel with
  | zero => intro acc rest hfu _ _; omega
  | succ n ih =>
    intro acc rest hfu hnone hlen
    rw [find_line_end_loop_succ]
    by_cases hre : rest = []
    · subst hre; simp
    · obtain ⟨x, xs, hxe⟩ : ∃ x xs, rest = x :: xs := by
        cases rest with
        | nil => exact absurd rfl hre
        | cons x xs => exact ⟨x, xs, rfl⟩
      rw [hxe, take_cons_isEmpty_false, ← hxe]
      simp only [Bool.false_eq_true, if_false]
      have hsz : ¬ MAX_CHUNK_SIZE < (acc ++ rest.take 1024).length := by
        have h1 : (rest.take 1024).length ≤ rest.length := by
          rw [List.length_take]; omega
        rw [List.length_append] at hlen ⊢
        omega
      rw [if_neg hsz]
      have hf : find10 (acc ++ rest.take 1024) = none := by
        rw [find10_eq_none_iff] at hnone ⊢
        intro hx
        apply hnone
        simp only [List.mem_append] at hx ⊢
        rcases hx with hx | hx
        · exact Or.inl hx
        · exact Or.inr (List.take_subset 1024 rest hx)
      rw [hf]
      have heq : (acc ++ rest.take 1024) ++ rest.drop 1024 = acc ++ rest := by
        rw [List.append_assoc, List.take_append_drop]
      apply ih
      · rw [List.length_drop]
        have : 1 ≤ rest.length := by
          rw [hxe]; simp
        omega
      · rw [heq]; exact hnone
      · rw [heq]; exact hlen

/-- The scan fails exactly when the stream has no terminator within the
first `MAX_CHUNK_SIZE` bytes (relative to the accumulator) and extends
beyond them. -/
theorem scan_char (fuel : ℕ) :
    ∀ acc rest, rest.length < fuel → find10 acc = none →
    acc.length ≤ MAX_CHUNK_SIZE → (1024 ∣ acc.length ∨ rest = []) →
    ((∃ e, find_line_end_loop fuel acc rest = .error e) ↔
      (MAX_CHUNK_SIZE ≤ acc.length + unterminatedRun rest ∧
       MAX_CHUNK_SIZE < acc.length + rest.length)) := by
  induction fuel with
  | zero => intro acc rest hfu _ _ _; omega
  | succ n ih =>
    intro acc rest hfu hacc hlen hdvd
    rw [find_line_end_loop_succ]
    by_cases hre : rest = []
    · subst hre
      simp only [List.take_nil, List.isEmpty_nil, if_true]
      constructor
      · rintro ⟨e, he⟩; exact absurd he (by simp)
      · rintro ⟨-, h2⟩
        simp only [List.length_nil] at h2
        omega
    · obtain ⟨x, xs, hxe⟩ : ∃ x xs, rest = x :: xs := by
        cases rest with
        | nil => exact absurd rfl hre
        | cons x xs => exact ⟨x, xs, rfl⟩
      rw [hxe, take_cons_isEmpty_false, ← hxe]
      simp only [Bool.false_eq_true, if_false]
      have hdvd' : 1024 ∣ acc.length := by
        rcases hdvd with h | h
        · exact h
        · exact absurd h hre
      have hMdvd : (1024 : ℕ) ∣ MAX_CHUNK_SIZE := by decide
      have htklen : (rest.take 1024).length = min 1024 rest.length := List.length_take 1024 rest
      have hrest1 : 1 ≤ rest.length := by rw [hxe]; simp
      by_cases hsz : MAX_CHUNK_SIZE < (acc ++ rest.take 1024).length
      · rw [if_pos hsz]
        have haccmax : acc.length = MAX_CHUNK_SIZE := by
          rw [List.length_append] at hsz
          omega
        constructor
        · intro _
          constructor
          · omega
          · omega
        · intro _
          exact ⟨_, rfl⟩
      · rw [if_neg hsz]
        cases hf : find10 (acc ++ rest.take 1024) with
        | some found =>
          have hlt : found < (acc ++ rest.take 1024).length := (find10_spec _ _ hf).2.2
          obtain ⟨j, hj, hfound⟩ : ∃ j, find10 (rest.take 1024) = some j ∧ found = j + acc.length := by
            rw [find10_append_none acc _ hacc] at hf
            cases h2 : find10 (rest.take 1024) with
            | none => rw [h2] at hf; simp at hf
            | some j =>
              rw [h2] at hf
              simp at hf
              exact ⟨j, rfl, hf.symm⟩
          have hrun : unterminatedRun rest = j :=
            unterminatedRun_of_find10 rest j (find10_take_some rest 1024 j hj)
          constructor
          · rintro ⟨e, he⟩
            simp at he
          · rintro ⟨h1, -⟩
            rw [hrun] at h1
            rw [List.length_append] at hsz hlt
            omega
        | none =>
          show (∃ e, find_line_end_loop n (acc ++ rest.take 1024) (rest.drop 1024) =
              Except.error e) ↔
            MAX_CHUNK_SIZE ≤ acc.length + unterminatedRun rest ∧
            MAX_CHUNK_SIZE < acc.length + rest.length
          have hchunknone : find10 (rest.take 1024) = none := (find10_append_none_left _ _ hf).2
          have hrun : unterminatedRun rest = (rest.take 1024).length + unterminatedRun (rest.drop 1024) := by
            conv_lhs => rw [← List.take_append_drop 1024 rest]
            rw [unterminatedRun_append _ _ hchunknone]
          have hdvd2 : 1024 ∣ (acc ++ rest.take 1024).length ∨ rest.drop 1024 = [] := by
            by_cases h1024 : 1024 ≤ rest.length
            · left
              rw [List.length_append]
              have : (rest.take 1024).length = 1024 := by omega
              rw [this]
              exact Nat.dvd_add hdvd' dvd_rfl
            · right
              rw [List.drop_eq_nil_iff]
              omega
          have hih := ih (acc ++ rest.take 1024) (rest.drop 1024)
            (by rw [List.length_drop]; omega) hf (by omega) hdvd2
          rw [hih]
          rw [List.length_append, List.length_drop]
          rw [hrun]
          constructor
          · rintro ⟨h1, h2⟩
            constructor
            · omega
            · omega
          · rintro ⟨h1, h2⟩
            constructor
            · omega
            · omega

/-- Every error produced by the scan loop (with sufficient fuel) carries
the size-limit message from the source. -/
theorem scan_err_msg (fuel : ℕ) :
    ∀ acc rest e, rest.length < fuel →
    find_line_end_loop fuel acc rest = .error e →
    e = "incorrect CSV file because same line is more than 50Mb" := by
  induction fuel with
  | zero => intro acc rest e hfu _; omega
  | succ n ih =>
    intro acc rest e hfu h
    rw [find_line_end_loop_succ] at h
    by_cases hre : rest = []
    · subst hre
      simp at h
    · obtain ⟨x, xs, hxe⟩ : ∃ x xs, rest = x :: xs := by
        cases rest with
        | nil => exact absurd rfl hre
        | cons x xs => exact ⟨x, xs, rfl⟩
      rw [hxe, take_cons_isEmpty_false, ← hxe] at h
      simp only [Bool.false_eq_true, if_false] at h
      by_cases hsz : MAX_CHUNK_SIZE < (acc ++ rest.take 1024).length
      · rw [if_pos hsz] at h
        simp at h
        exact h.symm
      · rw [if_neg hsz] at h
        cases hf : find10 (acc ++ rest.take 1024) with
        | some found => rw [hf] at h; simp at h
        | none =>
          rw [hf] at h
          apply ih _ _ _ _ h
          rw [List.length_drop]
          have : 1 ≤ rest.length := by rw [hxe]; simp
          omega

/- ### The chunk splitter `CsvParser.__create_chunk` -/

/-- The inner `while os.stat(temp_file).st_size < MAX_CHUNK_SIZE` loop of
`__create_chunk`: keep reading 1 MiB blocks and appending them to the
temp file.  Returns `(bytes written, unread stream, value of the loop
variable chunk)`; the loop variable keeps its previous value (`last`)
when no read happens, and becomes `[]` when a read hits end of stream. -/
def read_blocks : ℕ → ℕ → List ℕ → List ℕ → List ℕ × List ℕ × List ℕ
  | 0, _, rest, last => ([], rest, last)
  | fuel + 1, size, rest, last =>
    if size < MAX_CHUNK_SIZE then
      let chunk := rest.take (1024 * 1024)
      if chunk.isEmpty then ([], rest, [])
      else
        let res := read_blocks fuel (size + chunk.length) (rest.drop (1024 * 1024)) chunk
        (chunk ++ res.1, res.2)
    else ([], rest, last)

/-- The outer `while True` loop of `CsvParser.__create_chunk`.  Each
iteration writes `headers`, the pending `tail_part`, the blocks read by
the inner loop, and — when the loop variable is non-empty — the part of
the next line found by `__find_line_end`; it yields that buffer as one
chunk.  `last` is the current value of the loop variable `chunk`
(`[]` models Python's falsy `None` / `b""`). -/
def create_chunk_loop : ℕ → List ℕ → List ℕ → List ℕ → List ℕ → Except String (List (List ℕ))
  | 0, _, _, _, _ => .error "out of fuel"
  | fuel + 1, headers, tail_part, rest, last =>
    let res := read_blocks (rest.length + 1) (headers.length + tail_part.length) rest last
    if res.2.2.isEmpty then .ok [headers ++ tail_part ++ res.1]
    else
      match find_line_end res.2.1 with
      | .error e => .error e
      | .ok (right_part, tp2, rest2) =>
        match create_chunk_loop fuel headers tp2 rest2 res.2.2 with
        | .error e => .error e
        | .ok cs => .ok ((headers ++ tail_part ++ res.1 ++ right_part) :: cs)

/-- `CsvParser.__create_chunk` on a stream of bytes: scan the header
line, then run the chunk loop.  Each iteration of the outer loop either
consumes at least one byte or terminates within two further iterations,
so `rest.length + 2` fuel never runs out. -/
def create_chunk (stream : List ℕ) : Except String (List (List ℕ)) :=
  match find_line_end stream with
  | .error e => .error e
  | .ok (headers, tail_part, rest) =>
    create_chunk_loop (rest.length + 2) headers tail_part rest []

/-- Reassembling the yielded chunks as the spec describes: the first
chunk whole, every later chunk with the re-prepended header removed. -/
def reassemble (header_len : ℕ) : List (List ℕ) → List ℕ
  | [] => []
  | c :: cs => c ++ (cs.map (fun c2 => c2.drop header_len)).flatten

theorem read_blocks_succ (fuel size : ℕ) (rest last : List ℕ) :
    read_blocks (fuel + 1) size rest last =
      if size < MAX_CHUNK_SIZE then
        if (rest.take (1024 * 1024)).isEmpty then ([], rest, [])
        else
          let res := read_blocks fuel (size + (rest.take (1024 * 1024)).length)
            (rest.drop (1024 * 1024)) (rest.take (1024 * 1024))
          (rest.take (1024 * 1024) ++ res.1, res.2)
      else ([], rest, last) :=
  rfl

theorem take_cons_isEmpty_false_mib (x : ℕ) (xs : List ℕ) :
    ((x :: xs).take (1024 * 1024)).isEmpty = false := by
  rw [show (1024 * 1024 : ℕ) = 1048575 + 1 from rfl, List.take_succ_cons]
  rfl

/-- The blocks written by the inner loop are exactly the bytes it
consumed from the stream. -/
theorem read_blocks_split (fuel : ℕ) :
    ∀ size rest last, (read_blocks fuel size rest last).1 ++
      (read_blocks fuel size rest last).2.1 = rest := by
  induction fuel with
  | zero => intro size rest last; simp [read_blocks]
  | succ n ih =>
    intro size rest last
    rw [read_blocks_succ]
    by_cases hsz : size < MAX_CHUNK_SIZE
    · rw [if_pos hsz]
      by_cases hre : rest = []
      · subst hre; simp
      · obtain ⟨x, xs, hxe⟩ : ∃ x xs, rest = x :: xs := by
          cases rest with
          | nil => exact absurd rfl hre
          | cons x xs => exact ⟨x, xs, rfl⟩
        rw [hxe, take_cons_isEmpty_false_mib, ← hxe]
        simp only [Bool.false_eq_true, if_false]
        have hih := ih (size + (rest.take (1024 * 1024)).length)
          (rest.drop (1024 * 1024)) (rest.take (1024 * 1024))

        rw [List.append_assoc, hih, List.take_append_drop]
    · rw [if_neg hsz]; simp

/-- When the loop variable ends empty (with sufficient fuel), either the
stream was fully consumed, or no block at all was read because the
buffer already held `MAX_CHUNK_SIZE` bytes and the loop variable was
already empty. -/
theorem read_blocks_last_empty (fuel : ℕ) :
    ∀ size rest last, rest.length < fuel →
    (read_blocks fuel size rest last).2.2 = [] →
    (read_blocks fuel size rest last).2.1 = [] ∨
      ((read_blocks fuel size rest last).1 = [] ∧ last = [] ∧
        MAX_CHUNK_SIZE ≤ size) := by
  induction fuel with
  | zero => intro size rest last hfu _; omega
  | succ n ih =>
    intro size rest last hfu hlast
    rw [read_blocks_succ] at hlast ⊢
    by_cases hsz : size < MAX_CHUNK_SIZE
    · rw [if_pos hsz] at hlast ⊢
      by_cases hre : rest = []
      · subst hre
        simp
      · obtain ⟨x, xs, hxe⟩ : ∃ x xs, rest = x :: xs := by
          cases rest with
          | nil => exact absurd rfl hre
          | cons x xs => exact ⟨x, xs, rfl⟩
        rw [hxe, take_cons_isEmpty_false_mib, ← hxe] at hlast ⊢
        simp only [Bool.false_eq_true, if_false] at hlast ⊢

        have hfu2 : (rest.drop (1024 * 1024)).length < n := by
          rw [List.length_drop]
          have : 1 ≤ rest.length := by rw [hxe]; simp
          omega
        have hih := ih (size + (rest.take (1024 * 1024)).length)
          (rest.drop (1024 * 1024)) (rest.take (1024 * 1024)) hfu2 hlast
        rcases hih with h | ⟨-, h2, -⟩
        · exact Or.inl h
        · exfalso
          rw [hxe] at h2
          rw [show (1024 * 1024 : ℕ) = 1048575 + 1 from rfl, List.take_succ_cons] at h2
          simp at h2
    · rw [if_neg hsz] at hlast ⊢
      exact Or.inr ⟨rfl, hlast, by omega⟩

/-- If everything left fits under the size limit, the inner loop
consumes the whole stream and ends with an empty loop variable. -/
theorem read_blocks_all (fuel : ℕ) :
    ∀ size rest last, rest.length < fuel →
    size + rest.length < MAX_CHUNK_SIZE →
    read_blocks fuel size rest last = (rest, [], []) := by
  induction fuel with
  | zero => intro size rest last hfu _; omega
  | succ n ih =>
    intro size rest last hfu hsz
    rw [read_blocks_succ]
    rw [if_pos (by omega)]
    by_cases hre : rest = []
    · subst hre; simp
    · obtain ⟨x, xs, hxe⟩ : ∃ x xs, rest = x :: xs := by
        cases rest with
        | nil => exact absurd rfl hre
        | cons x xs => exact ⟨x, xs, rfl⟩
      rw [hxe, take_cons_isEmpty_false_mib, ← hxe]
      simp only [Bool.false_eq_true, if_false]

      have h1 : 1 ≤ rest.length := by rw [hxe]; simp
      have htk : (rest.take (1024 * 1024)).length = min (1024 * 1024) rest.length :=
        List.length_take _ _
      have hih := ih (size + (rest.take (1024 * 1024)).length) (rest.drop (1024 * 1024))
        (rest.take (1024 * 1024))
        (by rw [List.length_drop]; omega)
        (by rw [List.length_drop]; omega)
      rw [hih, List.take_append_drop]

theorem create_chunk_loop_succ (fuel : ℕ) (headers tail_part rest last : List ℕ) :
    create_chunk_loop (fuel + 1) headers tail_part rest last =
      if (read_blocks (rest.length + 1) (headers.length + tail_part.length) rest last).2.2.isEmpty
      then .ok [headers ++ tail_part ++
        (read_blocks (rest.length + 1) (headers.length + tail_part.length) rest last).1]
      else
        match find_line_end
          (read_blocks (rest.length + 1) (headers.length + tail_part.length) rest last).2.1 with
        | .error e => .error e
        | .ok (right_part, tp2, rest2) =>
          match create_chunk_loop fuel headers tp2 rest2
            (read_blocks (rest.length + 1) (headers.length + tail_part.length) rest last).2.2 with
          | .error e => .error e
          | .ok cs => .ok ((headers ++ tail_part ++
              (read_blocks (rest.length + 1) (headers.length + tail_part.length) rest last).1 ++
              right_part) :: cs) :=
  rfl

theorem flatten_eq_nil_each {L : List (List ℕ)} (h : L.flatten = []) : ∀ l ∈ L, l = [] := by
  induction L with
  | nil => simp
  | cons a as ih =>
    rw [List.flatten_cons] at h
    rcases List.append_eq_nil.mp h with ⟨h1, h2⟩
    intro l hl
    rcases List.mem_cons.mp hl with h3 | h3
    · rw [h3]; exact h1
    · exact ih h2 l h3

theorem mem_of_getLast?_some {l : List ℕ} {a : ℕ} (h : l.getLast? = some a) : a ∈ l := by
  rw [← List.head?_reverse] at h
  cases hrev : l.reverse with
  | nil => rw [hrev] at h; simp at h
  | cons y ys =>
    rw [hrev] at h
    simp at h
    rw [← List.mem_reverse, hrev, h]
    exact List.mem_cons_self a ys

/-- Main invariant of the chunk loop: provided the pending stream ends
with a record terminator, the bodies of the produced chunks (each chunk
minus the re-prepended header) concatenate to the pending tail plus the
unread stream, every chunk after the first starts with the header, and
every such chunk's body is empty or starts at a record terminator. -/
theorem create_chunk_loop_spec (fuel : ℕ) :
    ∀ headers tail_part rest last cs,
    create_chunk_loop fuel headers tail_part rest last = .ok cs →
    (last = [] → headers.length + tail_part.length < MAX_CHUNK_SIZE) →
    (rest = [] ∨ rest.getLast? = some 10) →
    ∃ b0 cs2, cs = (headers ++ tail_part ++ b0) :: cs2 ∧
      (cs.map (fun c => c.drop headers.length)).flatten = tail_part ++ rest ∧
      (∀ c ∈ cs2, ∃ b, c = headers ++ b) ∧
      (∀ c ∈ cs2, c.drop headers.length = [] ∨
        (c.drop headers.length).head? = some 10) := by
  induction fuel with
  | zero =>
    intro headers tail_part rest last cs h _ _
    simp [create_chunk_loop] at h
  | succ n ih =>
    intro headers tail_part rest last cs h hsize htrail
    rw [create_chunk_loop_succ] at h
    set R := read_blocks (rest.length + 1) (headers.length + tail_part.length) rest last
      with hRdef
    have hsplit : R.1 ++ R.2.1 = rest := read_blocks_split _ _ _ _
    by_cases hle : R.2.2 = []
    · rw [if_pos (by rw [hle]; rfl)] at h
      have hcase := read_blocks_last_empty (rest.length + 1)
        (headers.length + tail_part.length) rest last (by omega) hle
      have hr1 : R.2.1 = [] := by
        rcases hcase with h1 | ⟨-, hl2, h3⟩
        · exact h1
        · exact absurd h3 (by have := hsize hl2; omega)
      have hcons : R.1 = rest := by
        rw [hr1, List.append_nil] at hsplit
        exact hsplit
      simp only [Except.ok.injEq] at h
      refine ⟨R.1, [], h.symm, ?_, by simp, by simp⟩
      rw [← h]
      simp only [List.map_cons, List.map_nil, List.flatten_cons, List.flatten_nil,
        List.append_nil]
      rw [List.append_assoc, drop_len_append, hcons]
    · rw [if_neg (by rw [isEmpty_false_of_ne_nil hle]; simp)] at h
      cases hscan : find_line_end R.2.1 with
      | error e =>
        rw [hscan] at h
        simp at h
      | ok triple =>
        obtain ⟨right_part, tp2, rest2⟩ := triple
        rw [hscan] at h
        dsimp only at h
        cases hrec : create_chunk_loop n headers tp2 rest2 R.2.2 with
        | error e => rw [hrec] at h; simp at h
        | ok cs_rec =>
          rw [hrec] at h
          simp only [Except.ok.injEq] at h
          by_cases hr1 : R.2.1 = []
          · have hscan0 : (Except.ok ([], [], []) :
                Except String (List ℕ × List ℕ × List ℕ)) =
                .ok (right_part, tp2, rest2) := by
              rw [← hscan, hr1]; rfl
            simp only [Except.ok.injEq, Prod.mk.injEq] at hscan0
            obtain ⟨hrp, htp2, hrest2⟩ := hscan0
            have hcons : R.1 = rest := by
              rw [hr1, List.append_nil] at hsplit
              exact hsplit
            obtain ⟨b0', cs2', heq', hflat', hpre', hbody'⟩ :=
              ih headers tp2 rest2 R.2.2 cs_rec hrec
                (fun hc => absurd hc hle)
                (Or.inl hrest2.symm)
            have hflatnil : (cs_rec.map (fun c => c.drop headers.length)).flatten = [] := by
              rw [hflat', ← htp2, ← hrest2]
              rfl
            have hallnil : ∀ c ∈ cs_rec, c.drop headers.length = [] :=
              fun c hc => flatten_eq_nil_each hflatnil _ (List.mem_map_of_mem _ hc)
            refine ⟨R.1 ++ right_part, cs_rec, ?_, ?_, ?_, ?_⟩
            · rw [← h]
              simp [List.append_assoc]
            · rw [← h]
              simp only [List.map_cons, List.flatten_cons]
              rw [show headers ++ tail_part ++ R.1 ++ right_part =
                headers ++ (tail_part ++ R.1 ++ right_part) by simp [List.append_assoc]]
              rw [drop_len_append, hflatnil, List.append_nil, ← hrp,
                List.append_nil, hcons]
            · intro c hc
              rcases List.mem_cons.mp (by rw [heq'] at hc; exact hc) with h1 | h1
              · exact ⟨tp2 ++ b0', by rw [h1, List.append_assoc]⟩
              · exact hpre' c h1
            · intro c hc
              exact Or.inl (hallnil c hc)
          · have hrest_ne : rest ≠ [] := by
              intro hco
              rw [hco] at hsplit
              exact hr1 (List.append_eq_nil.mp hsplit).2
            have hlast10 : R.2.1.getLast? = some 10 := by
              rcases htrail with h1 | h1
              · exact absurd h1 hrest_ne
              · rw [← hsplit] at h1
                rwa [getLast?_append_right R.1 hr1] at h1
            have hmem10 : 10 ∈ R.2.1 := mem_of_getLast?_some hlast10
            have hshape := scan_shape (R.2.1.length + 1) [] R.2.1 right_part tp2 rest2
              hscan rfl (by simpa using hmem10)
            rw [List.nil_append] at hshape
            obtain ⟨hsplit2, hrpnone, htp2head⟩ := hshape
            have htp2ne : tp2 ≠ [] := by
              intro hco
              rw [hco] at htp2head
              simp at htp2head
            obtain ⟨b0', cs2', heq', hflat', hpre', hbody'⟩ :=
              ih headers tp2 rest2 R.2.2 cs_rec hrec
                (fun hc => absurd hc hle)
                (by
                  by_cases hr2 : rest2 = []
                  · exact Or.inl hr2
                  · right
                    have hne : tp2 ++ rest2 ≠ [] := by
                      intro hco
                      exact htp2ne (List.append_eq_nil.mp hco).1
                    have e1 : (tp2 ++ rest2).getLast? = rest2.getLast? :=
                      getLast?_append_right tp2 hr2
                    have e2 : (right_part ++ (tp2 ++ rest2)).getLast? =
                        (tp2 ++ rest2).getLast? :=
                      getLast?_append_right right_part hne
                    rw [← e1, ← e2, hsplit2]
                    exact hlast10)
            refine ⟨R.1 ++ right_part, cs_rec, ?_, ?_, ?_, ?_⟩
            · rw [← h]
              simp [List.append_assoc]
            · rw [← h]
              simp only [List.map_cons, List.flatten_cons]
              rw [show headers ++ tail_part ++ R.1 ++ right_part =
                headers ++ (tail_part ++ R.1 ++ right_part) by simp [List.append_assoc]]
              rw [drop_len_append, hflat', ← hsplit]
              simp [List.append_assoc, hsplit2]
            · intro c hc
              rcases List.mem_cons.mp (by rw [heq'] at hc; exact hc) with h1 | h1
              · exact ⟨tp2 ++ b0', by rw [h1, List.append_assoc]⟩
              · exact hpre' c h1
            · intro c hc
              rcases List.mem_cons.mp (by rw [heq'] at hc; exact hc) with h1 | h1
              · right
                rw [h1]
                rw [show headers ++ tp2 ++ b0' = headers ++ (tp2 ++ b0') by
                  simp [List.append_assoc]]
                rw [drop_len_append]
                rw [head?_append_left htp2ne]
                exact htp2head
              · exact hbody' c h1

/- ### Structured big inputs: `rep n P` is `n` copies of the pattern `P` -/

def rep : ℕ → List ℕ → List ℕ
  | 0, _ => []
  | n + 1, P => P ++ rep n P

theorem rep_length (n : ℕ) (P : List ℕ) : (rep n P).length = n * P.length := by
  induction n with
  | zero => simp [rep]
  | succ m ih => rw [rep, List.length_append, ih, Nat.succ_mul]; omega

theorem rep_add (m n : ℕ) (P : List ℕ) : rep (m + n) P = rep m P ++ rep n P := by
  induction m with
  | zero => simp [rep]
  | succ k ih =>
    have h1 : k + 1 + n = (k + n) + 1 := by omega
    rw [h1, rep, rep, ih, List.append_assoc]

theorem rep_ne_nil (n : ℕ) (P : List ℕ) (hn : 0 < n) (hP : P ≠ []) : rep n P ≠ [] := by
  cases n with
  | zero => omega
  | succ m =>
    rw [rep]
    intro h
    exact hP (List.append_eq_nil.mp h).1

theorem find10_rep97 (n : ℕ) : find10 (rep n [97]) = none := by
  induction n with
  | zero => rfl
  | succ m ih => rw [rep]; simp [find10, ih]

theorem rep_split_at (k n : ℕ) (P : List ℕ) (hk : k ≤ n) :
    rep n P = rep k P ++ rep (n - k) P := by
  conv_lhs => rw [show n = k + (n - k) by omega]
  rw [rep_add]

theorem take_rep_split (k n : ℕ) (P suffix : List ℕ) (hk : k ≤ n) :
    (rep n P ++ suffix).take ((rep k P).length) = rep k P := by
  rw [rep_split_at k n P hk, List.append_assoc]
  exact take_len_append _ _

theorem drop_rep_split (k n : ℕ) (P suffix : List ℕ) (hk : k ≤ n) :
    (rep n P ++ suffix).drop ((rep k P).length) = rep (n - k) P ++ suffix := by
  rw [rep_split_at k n P hk, List.append_assoc]
  exact drop_len_append _ _

/-- The inner block loop over a `rep`-shaped stream: starting below the
limit, it reads exactly `k` full 1 MiB blocks — `m` pattern copies per
block — and stops as soon as the accumulated size reaches the limit. -/
theorem read_blocks_rep (P : List ℕ) (m : ℕ) (hm : m * P.length = 1024 * 1024)
    (hP : P ≠ []) :
    ∀ k fuel size n suffix last, k ≤ fuel →
    (∀ j, j < k → size + j * (1024 * 1024) < MAX_CHUNK_SIZE) →
    MAX_CHUNK_SIZE ≤ size + k * (1024 * 1024) →
    m * k ≤ n →
    read_blocks fuel size (rep n P ++ suffix) last =
      (rep (m * k) P, rep (n - m * k) P ++ suffix,
        if k = 0 then last else rep m P) := by
  intro k
  induction k with
  | zero =>
    intro fuel size n suffix last _ _ hstop _
    cases fuel with
    | zero => simp [read_blocks, rep]
    | succ f =>
      rw [read_blocks_succ, if_neg (by omega)]
      simp [rep]
  | succ k2 ih =>
    intro fuel size n suffix last hfu hlow hstop hn
    have hm1 : 1 ≤ m := by
      by_contra hc
      have : m = 0 := by omega
      rw [this] at hm
      simp at hm
    have hmk : m ≤ n := by
      have : m * 1 ≤ m * (k2 + 1) := Nat.mul_le_mul_left m (by omega)
      omega
    cases fuel with
    | zero => omega
    | succ f =>
      rw [read_blocks_succ, if_pos (by have := hlow 0 (by omega); simpa using this)]
      have hsplitrep : rep n P ++ suffix = rep m P ++ (rep (n - m) P ++ suffix) := by
        rw [rep_split_at m n P hmk, List.append_assoc]
      have hlenm : (rep m P).length = 1024 * 1024 := by rw [rep_length, hm]
      have htake : (rep n P ++ suffix).take (1024 * 1024) = rep m P := by
        rw [hsplitrep, take_eq_of_len _ _ _ hlenm]
      have hdrop : (rep n P ++ suffix).drop (1024 * 1024) = rep (n - m) P ++ suffix := by
        rw [hsplitrep, drop_eq_of_len _ _ _ hlenm]
      have hne : rep m P ≠ [] := rep_ne_nil m P (by omega) hP
      rw [htake, hdrop, isEmpty_false_of_ne_nil hne]
      simp only [Bool.false_eq_true, if_false]
      rw [hlenm]
      have hih := ih f (size + 1024 * 1024) (n - m) suffix (rep m P)
        (by omega)
        (by
          intro j hj
          have := hlow (j + 1) (by omega)
          have h2 : size + (j + 1) * (1024 * 1024) =
            size + 1024 * 1024 + j * (1024 * 1024) := by ring
          omega)
        (by
          have h2 : size + (k2 + 1) * (1024 * 1024) =
            size + 1024 * 1024 + k2 * (1024 * 1024) := by ring
          omega)
        (by
          have h2 : m * (k2 + 1) = m + m * k2 := by ring
          omega)
      rw [hih]
      have hfin : rep m P ++ rep (m * k2) P = rep (m * (k2 + 1)) P := by
        rw [← rep_add, show m + m * k2 = m * (k2 + 1) by ring]
      have hfin2 : n - m - m * k2 = n - m * (k2 + 1) := by
        have h2 : m * (k2 + 1) = m + m * k2 := by ring
        omega
      simp only [ite_self]
      rw [if_neg (by omega : ¬ (k2 + 1 = 0)), hfin, hfin2]

/- ### Concrete big inputs for the chunker scenarios -/

/-- A header line `"h\n"`, a single 'a'-run crossing the 50 MiB block
boundary, and a final unterminated 3-byte line `"bbb"`. -/
def exC2 : List ℕ := 104 :: 10 :: (rep 52429822 [97] ++ [98, 98, 98])

/-- The single data-bearing chunk the splitter produces on `exC2`:
the final `"bbb"` bytes are missing. -/
def exC2chunk1 : List ℕ := 104 :: 10 :: (rep 1022 [97] ++ rep 52428800 [97])

/-- One 1024-byte CSV line: 1023 'a' bytes and the record terminator. -/
def P7 : List ℕ := rep 1023 [97] ++ [10]

/-- A 120 MiB input made of 122880 such lines. -/
def exC7 : List ℕ := rep 122880 P7

/-- First and second chunk produced on `exC7` (52430847 bytes each). -/
def chunkA : List ℕ := rep 1023 [97] ++ [10] ++ rep 51200 P7 ++ rep 1023 [97]

/-- Third and final chunk produced on `exC7` (20969472 bytes). -/
def chunkB : List ℕ := rep 1023 [97] ++ [10] ++ rep 20477 P7

theorem P7_length : P7.length = 1024 := by
  simp [P7, rep_length]

theorem P7_ne_nil : P7 ≠ [] := by
  intro h
  have h2 := P7_length
  rw [h] at h2
  simp at h2

theorem find10_P7 : find10 P7 = some 1023 := by
  rw [P7, find10_append_none _ _ (find10_rep97 1023)]
  rw [show find10 [10] = some 0 by norm_num [find10]]
  simp [rep_length]

theorem scan_rep_P7 (n : ℕ) :
    find_line_end (rep (n + 1) P7) = .ok (rep 1023 [97], [10], rep n P7) := by
  show find_line_end_loop ((rep (n + 1) P7).length + 1) [] (rep (n + 1) P7) = _
  rw [find_line_end_loop_succ]
  have hr1 : rep 1 P7 = P7 := by simp [rep]
  have hsplit : rep (n + 1) P7 = P7 ++ rep n P7 := by
    rw [show n + 1 = 1 + n by omega, rep_add, hr1]
  have htake : (rep (n + 1) P7).take 1024 = P7 := by
    rw [hsplit]; exact take_eq_of_len _ _ _ P7_length
  have hdrop : (rep (n + 1) P7).drop 1024 = rep n P7 := by
    rw [hsplit]; exact drop_eq_of_len _ _ _ P7_length
  rw [htake, hdrop, List.nil_append, isEmpty_false_of_ne_nil P7_ne_nil]
  simp only [Bool.false_eq_true, if_false]
  rw [P7_length, if_neg (by norm_num [MAX_CHUNK_SIZE])]
  rw [find10_P7]
  dsimp only
  have htk : P7.take 1023 = rep 1023 [97] := by
    rw [P7]; exact take_eq_of_len _ _ _ (by simp [rep_length])
  have hdr : P7.drop 1023 = [10] := by
    rw [P7]; exact drop_eq_of_len _ _ _ (by simp [rep_length])
  rw [htk, hdr]

theorem scan_exC2 :
    find_line_end exC2 =
      .ok ([104], 10 :: rep 1022 [97], rep 52428800 [97] ++ [98, 98, 98]) := by
  show find_line_end_loop (exC2.length + 1) [] exC2 = _
  rw [find_line_end_loop_succ]
  have h1022 : (rep 1022 [97]).length = 1022 := by simp [rep_length]
  have htake : exC2.take 1024 = 104 :: 10 :: rep 1022 [97] := by
    rw [exC2, show (1024 : ℕ) = 1023 + 1 from rfl, List.take_succ_cons,
      show (1023 : ℕ) = 1022 + 1 from rfl, List.take_succ_cons]
    have h2 := take_rep_split 1022 52429822 [97] [98, 98, 98] (by omega)
    rw [h1022] at h2
    rw [h2]
  have hdrop : exC2.drop 1024 = rep 52428800 [97] ++ [98, 98, 98] := by
    rw [exC2, show (1024 : ℕ) = 1023 + 1 from rfl, List.drop_succ_cons,
      show (1023 : ℕ) = 1022 + 1 from rfl, List.drop_succ_cons]
    have h2 := drop_rep_split 1022 52429822 [97] [98, 98, 98] (by omega)
    rw [h1022] at h2
    rw [h2, show (52429822 - 1022 : ℕ) = 52428800 by norm_num]
  rw [htake, hdrop]
  rw [show ((104 : ℕ) :: 10 :: rep 1022 [97]).isEmpty = false from rfl]
  simp only [Bool.false_eq_true, if_false, List.nil_append]
  rw [if_neg (by
    simp only [List.length_cons, h1022]
    norm_num [MAX_CHUNK_SIZE])]
  have hfind : ∀ X : List ℕ, find10 (104 :: 10 :: X) = some 1 := by
    intro X
    norm_num [find10]
  rw [hfind]
  dsimp only
  rw [show ((104 : ℕ) :: 10 :: rep 1022 [97]).take 1 = [104] from rfl]
  rw [show ((104 : ℕ) :: 10 :: rep 1022 [97]).drop 1 = 10 :: rep 1022 [97] from rfl]

theorem create_chunk_eq (stream : List ℕ) :
    create_chunk stream =
      match find_line_end stream with
      | Except.error e => Except.error e
      | Except.ok (headers, tail_part, rest) =>
        create_chunk_loop ((rest.length + 1) + 1) headers tail_part rest [] :=
  rfl

theorem create_chunk_exC2 :
    create_chunk exC2 = .ok [exC2chunk1, [104]] := by
  rw [create_chunk_eq, scan_exC2]
  dsimp only
  set Y : List ℕ := rep 52428800 [97] ++ [98, 98, 98] with hYdef
  rw [create_chunk_loop_succ]
  have hsz : ([104] : List ℕ).length + ((10 : ℕ) :: rep 1022 [97]).length = 1024 := by
    simp [rep_length]
  have hrb : read_blocks (Y.length + 1)
      (([104] : List ℕ).length + ((10 : ℕ) :: rep 1022 [97]).length) Y [] =
      (rep 52428800 [97], [98, 98, 98], rep 1048576 [97]) := by
    rw [hsz, hYdef]
    have h2 := read_blocks_rep [97] 1048576 (by norm_num) (by simp)
      50 ((rep 52428800 [97] ++ [98, 98, 98]).length + 1) 1024 52428800 [98, 98, 98] []
      (by rw [List.length_append, rep_length]; norm_num)
      (by intro j hj; norm_num [MAX_CHUNK_SIZE]; omega)
      (by norm_num [MAX_CHUNK_SIZE])
      (by norm_num)
    rw [h2]
    norm_num
    rfl
  rw [hrb]
  dsimp only
  have hlne : rep 1048576 [97] ≠ [] := rep_ne_nil _ _ (by omega) (by simp)
  rw [isEmpty_false_of_ne_nil hlne]
  simp only [Bool.false_eq_true, if_false]
  rw [show find_line_end ([98, 98, 98] : List ℕ) = .ok ([], [], []) from rfl]
  dsimp only
  have hrec : create_chunk_loop (Y.length + 1) [104] [] [] (rep 1048576 [97]) =
      .ok [[104]] := by
    rw [create_chunk_loop_succ]
    rw [show read_blocks (([] : List ℕ).length + 1)
        (([104] : List ℕ).length + ([] : List ℕ).length) [] (rep 1048576 [97]) =
        ([], [], []) from rfl]
    simp
  rw [hrec]
  dsimp only
  simp [exC2chunk1, List.append_assoc]

theorem read_blocks_rep_P7 (n2 : ℕ) (last : List ℕ) :
    read_blocks ((rep (51200 + n2) P7).length + 1)
      ((rep 1023 [97]).length + ([10] : List ℕ).length) (rep (51200 + n2) P7) last =
      (rep 51200 P7, rep n2 P7, rep 1024 P7) := by
  have hhl : (rep 1023 [97]).length = 1023 := by rw [rep_length]; norm_num
  have happ : rep (51200 + n2) P7 ++ [] = rep (51200 + n2) P7 := List.append_nil _
  have h2 := read_blocks_rep P7 1024 (by rw [P7_length]) P7_ne_nil
    50 ((rep (51200 + n2) P7).length + 1)
    ((rep 1023 [97]).length + ([10] : List ℕ).length) (51200 + n2) [] last
    (by rw [rep_length, P7_length]; omega)
    (by
      intro j hj
      rw [hhl]
      norm_num [MAX_CHUNK_SIZE]
      omega)
    (by rw [hhl]; norm_num [MAX_CHUNK_SIZE])
    (by omega)
  rw [happ] at h2
  rw [show (1024 * 50 : ℕ) = 51200 by norm_num] at h2
  rw [show (51200 + n2 - 51200 : ℕ) = n2 by omega] at h2
  rw [if_neg (by norm_num : ¬ (50 = 0))] at h2
  rw [List.append_nil] at h2
  exact h2

theorem create_chunk_loop_P7_step (fuel n2 : ℕ) (last : List ℕ) :
    create_chunk_loop (fuel + 1) (rep 1023 [97]) [10] (rep (51201 + n2) P7) last =
      (create_chunk_loop fuel (rep 1023 [97]) [10] (rep n2 P7)
        (rep 1024 P7)).map (fun cs => chunkA :: cs) := by
  rw [create_chunk_loop_succ]
  have h2 := read_blocks_rep_P7 (n2 + 1) last
  rw [show (51200 + (n2 + 1) : ℕ) = 51201 + n2 by omega] at h2
  rw [h2]
  dsimp only
  rw [isEmpty_false_of_ne_nil (rep_ne_nil _ _ (by omega) P7_ne_nil)]
  simp only [Bool.false_eq_true, if_false]
  rw [scan_rep_P7 n2]
  dsimp only
  cases hx : create_chunk_loop fuel (rep 1023 [97]) [10] (rep n2 P7)
      (rep 1024 P7) with
  | error e => rfl
  | ok cs => simp [Except.map, chunkA]

theorem create_chunk_loop_P7_fin (fuel n : ℕ) (last : List ℕ)
    (hn2 : n ≤ 51198) :
    create_chunk_loop (fuel + 1) (rep 1023 [97]) [10] (rep n P7) last =
      .ok [rep 1023 [97] ++ [10] ++ rep n P7] := by
  rw [create_chunk_loop_succ]
  have hhl : (rep 1023 [97]).length = 1023 := by rw [rep_length]; norm_num
  have hrb := read_blocks_all ((rep n P7).length + 1)
    ((rep 1023 [97]).length + ([10] : List ℕ).length) (rep n P7) last
    (by omega)
    (by
      rw [hhl, rep_length, P7_length]
      norm_num [MAX_CHUNK_SIZE]
      omega)
  rw [hrb]
  simp

theorem create_chunk_exC7 : create_chunk exC7 = .ok [chunkA, chunkA, chunkB] := by
  rw [show exC7 = rep (122879 + 1) P7 from by rw [exC7], create_chunk_eq]
  rw [scan_rep_P7 122879]
  dsimp only
  rw [show (122879 : ℕ) = 51201 + 71678 by norm_num]
  rw [create_chunk_loop_P7_step ((rep (51201 + 71678) P7).length + 1) 71678 []]
  rw [show rep 71678 P7 = rep (51201 + 20477) P7 from by
    rw [show (71678 : ℕ) = 51201 + 20477 by norm_num]]
  rw [create_chunk_loop_P7_step ((rep (51201 + 71678) P7).length) 20477
    (rep 1024 P7)]
  have hL : (rep (51201 + 71678) P7).length = 125828095 + 1 := by
    rw [rep_length, P7_length]
  rw [hL]
  rw [create_chunk_loop_P7_fin 125828095 20477 (rep 1024 P7) (by norm_num)]
  simp [Except.map, chunkB]

/- ### Record streamer: `CsvParser.__read_stream_by_chunks` / `stream_records`

The pyarrow engine is external to the repository: its output is modelled
as a list of columnar batches (`PyBatch`), each an ordered list of
(column name, column values) pairs as given by `batch.schema`.  The
repository code under verification is the transposition loop that turns
each batch into row-major records. -/

/-- A Python `dict` as an insertion-ordered association list:
inserting an existing key updates it in place, a new key is appended.
Keys are unique by construction. -/
def pyUpsert {κ α : Type} [DecidableEq κ] (k : κ) (v : α) :
    List (κ × α) → List (κ × α)
  | [] => [(k, v)]
  | (k2, v2) :: t => if k2 = k then (k, v) :: t else (k2, v2) :: pyUpsert k v t

/-- Build a Python `dict` from a list of key/value pairs. -/
def pyDictOf {κ α : Type} [DecidableEq κ] (l : List (κ × α)) : List (κ × α) :=
  l.foldl (fun d kv => pyUpsert kv.1 kv.2 d) []

/-- Python `dict` lookup. -/
def pyLookup {κ α : Type} [DecidableEq κ] (k : κ) : List (κ × α) → Option α
  | [] => none
  | (k2, v2) :: t => if k2 = k then some v2 else pyLookup k t

/-- Length of the shortest iterable, as Python's `zip` stops there;
`zip()` with no arguments is empty. -/
def pyMinLen {α : Type} : List (List α) → ℕ
  | [] => 0
  | c :: cs => cs.foldl (fun m l => min m l.length) c.length

/-- Python's `zip(*columnwise_record_values)`: the i-th output row
collects the i-th element of every column, stopping at the shortest. -/
def pyZip {α : Type} [Inhabited α] (cols : List (List α)) : List (List α) :=
  (List.range (pyMinLen cols)).map (fun i => cols.map (fun c => c.getD i default))

/-- One engine batch: `batch.schema` order with the column values,
as exposed by `batch.to_pydict()`. -/
structure PyBatch (α : Type) where
  cols : List (String × List α)

/-- `[col_info.name for col_info in batch.schema]`. -/
def batchColumns {α : Type} (b : PyBatch α) : List String :=
  b.cols.map (fun c => c.1)

/-- Number of data rows of a batch (length of its first column). -/
def nRows {α : Type} (b : PyBatch α) : ℕ :=
  (b.cols.headD ("", [])).2.length

/-- The body of the batch loop shared by `stream_records` (line 150) and
`__read_stream_by_chunks`: `batch.to_pydict()`, column list from the
schema, column-wise values, `zip`, then one dict per row. -/
def batchRecords {α : Type} [Inhabited α] (b : PyBatch α) : List (List (String × α)) :=
  let batch_dict := pyDictOf b.cols
  let batch_columns := batchColumns b
  let columnwise_record_values := batch_columns.map
    (fun column => (pyLookup column batch_dict).getD [])
  (pyZip columnwise_record_values).map (fun record_values =>
    pyDictOf ((List.range batch_columns.length).map
      (fun i => (batch_columns.getD i "", record_values.getD i default))))

/-- `CsvParser.__read_stream_by_chunks`: drive the engine until
`StopIteration`, yielding the records of each batch in order. -/
def read_stream_by_chunks {α : Type} [Inhabited α] (batches : List (PyBatch α)) :
    List (List (String × α)) :=
  batches.flatMap batchRecords

/-- The `FileInfo` fields used by `stream_records`. -/
structure FileInfo where
  key : String
  size : ℕ

/-- `CsvParser.stream_records(file, file_info)` (line 206): it yields
from `__read_stream_by_chunks(file)` and returns; the chunking branch
below the `return` never executes.  The engine (`pa_csv.open_csv`) is
abstracted as a function from the raw bytes to the batch list. -/
def stream_records {α : Type} [Inhabited α]
    (engine : List ℕ → List (PyBatch α)) (file : List ℕ) (_file_info : FileInfo) :
    List (List (String × α)) :=
  read_stream_by_chunks (engine file)

/- ### Record streamer lemmas -/

theorem pyUpsert_not_mem {κ α : Type} [DecidableEq κ] (k : κ) (v : α)
    (d : List (κ × α)) (h : k ∉ d.map (fun kv => kv.1)) :
    pyUpsert k v d = d ++ [(k, v)] := by
  induction d with
  | nil => rfl
  | cons kv t ih =>
    obtain ⟨k2, v2⟩ := kv
    simp only [List.map_cons, List.mem_cons] at h
    rw [pyUpsert, if_neg (by intro hc; exact h (Or.inl hc.symm))]
    rw [ih (by intro hc; exact h (Or.inr hc))]
    rfl

theorem pyDictOf_aux_nodup {κ α : Type} [DecidableEq κ] (l acc : List (κ × α))
    (hdis : ∀ k ∈ l.map (fun kv => kv.1), k ∉ acc.map (fun kv => kv.1))
    (hnd : (l.map (fun kv => kv.1)).Nodup) :
    l.foldl (fun d kv => pyUpsert kv.1 kv.2 d) acc = acc ++ l := by
  induction l generalizing acc with
  | nil => simp
  | cons kv t ih =>
    obtain ⟨k2, v2⟩ := kv
    rw [List.foldl_cons]
    rw [pyUpsert_not_mem k2 v2 acc (hdis k2 (by simp))]
    rw [List.map_cons, List.nodup_cons] at hnd
    rw [ih (acc ++ [(k2, v2)])
      (by
        intro k hk
        simp only [List.map_append, List.mem_append]
        intro hc
        rcases hc with hc | hc
        · exact hdis k (by simp [hk]) hc
        · simp at hc
          rw [hc] at hk
          exact hnd.1 hk)
      hnd.2]
    simp

theorem pyDictOf_nodup {κ α : Type} [DecidableEq κ] (l : List (κ × α))
    (hnd : (l.map (fun kv => kv.1)).Nodup) : pyDictOf l = l := by
  rw [pyDictOf, pyDictOf_aux_nodup l [] (by simp) hnd]
  rfl

theorem pyLookup_mem {κ α : Type} [DecidableEq κ] (l : List (κ × α)) (k : κ) (v : α)
    (hnd : (l.map (fun kv => kv.1)).Nodup) (hmem : (k, v) ∈ l) :
    pyLookup k l = some v := by
  induction l with
  | nil => simp at hmem
  | cons kv t ih =>
    obtain ⟨k2, v2⟩ := kv
    rw [List.map_cons, List.nodup_cons] at hnd
    rcases List.mem_cons.mp hmem with h1 | h1
    · rw [pyLookup, if_pos (by injection h1 with ha hb; exact ha.symm)]
      injection h1 with ha hb
      rw [hb]
    · rw [pyLookup]
      by_cases hk : k2 = k
      · exfalso
        apply hnd.1
        rw [hk]
        exact List.mem_map_of_mem (fun kv => kv.1) h1
      · rw [if_neg hk]
        exact ih hnd.2 h1

theorem pyMinLen_const {α : Type} (cols : List (List α)) (n : ℕ)
    (hne : cols ≠ []) (hlen : ∀ c ∈ cols, c.length = n) : pyMinLen cols = n := by
  cases cols with
  | nil => exact absurd rfl hne
  | cons c cs =>
    rw [pyMinLen]
    have hc : c.length = n := hlen c (by simp)
    have haux : ∀ (ds : List (List α)), (∀ d ∈ ds, d.length = n) →
        ds.foldl (fun m l => min m l.length) n = n := by
      intro ds
      induction ds with
      | nil => intro _; rfl
      | cons d ds2 ih2 =>
        intro hds
        rw [List.foldl_cons, hds d (by simp), min_self]
        exact ih2 (fun d2 hd2 => hds d2 (by simp [hd2]))
    rw [hc]
    exact haux cs (fun d hd => hlen d (by simp [hd]))

theorem range_map_getD_zip {α β : Type} (as : List α) (bs : List β) (da : α) (db : β)
    (hlen : as.length = bs.length) :
    (List.range as.length).map (fun i => (as.getD i da, bs.getD i db)) = as.zip bs := by
  induction as generalizing bs with
  | nil => simp
  | cons a as2 ih =>
    cases bs with
    | nil => simp at hlen
    | cons b bs2 =>
      rw [List.length_cons, List.range_succ_eq_map, List.map_cons, List.map_map]
      simp only [List.getD_cons_zero, List.getD_cons_succ, Function.comp]
      rw [List.zip_cons_cons]
      congr 1
      have hlen2 : as2.length = bs2.length := by simpa using hlen
      exact ih bs2 hlen2

theorem map_congr_mem {α β : Type} {l : List α} {f g : α → β}
    (h : ∀ a ∈ l, f a = g a) : l.map f = l.map g := by
  induction l with
  | nil => rfl
  | cons x xs ih =>
    rw [List.map_cons, List.map_cons, h x (by simp), ih (fun a ha => h a (by simp [ha]))]

/-- Closed form of the per-batch transposition: one record per row, in
row order, each record listing every column name (in schema order)
paired with that column's value for the row. -/
theorem batchRecords_eq {α : Type} [Inhabited α] (b : PyBatch α)
    (hnd : (b.cols.map (fun c => c.1)).Nodup)
    (hne : b.cols ≠ [])
    (hlen : ∀ c ∈ b.cols, c.2.length = nRows b) :
    batchRecords b = (List.range (nRows b)).map
      (fun i => b.cols.map (fun c => (c.1, c.2.getD i default))) := by
  unfold batchRecords
  dsimp only
  rw [pyDictOf_nodup b.cols hnd]
  have hcw : (batchColumns b).map (fun column => (pyLookup column b.cols).getD []) =
      b.cols.map (fun c => c.2) := by
    rw [batchColumns, List.map_map]
    apply map_congr_mem
    intro c hc
    have hl := pyLookup_mem b.cols c.1 c.2 hnd (by
      have : (c.1, c.2) = c := rfl
      rw [this]
      exact hc)
    simp [Function.comp, hl]
  rw [hcw]
  have hmin : pyMinLen (b.cols.map (fun c => c.2)) = nRows b := by
    apply pyMinLen_const
    · intro hco
      exact hne (List.map_eq_nil_iff.mp hco)
    · intro c hc
      obtain ⟨c0, hc0, hc0e⟩ := List.mem_map.mp hc
      rw [← hc0e]
      exact hlen c0 hc0
  rw [pyZip, hmin, List.map_map]
  apply map_congr_mem
  intro i hi
  have hilt : i < nRows b := by simpa using List.mem_range.mp hi
  simp only [Function.comp]
  have hlen1 : (batchColumns b).length = b.cols.length := by
    rw [batchColumns, List.length_map]
  have hlen2 : ((b.cols.map (fun c => c.2)).map (fun c => c.getD i default)).length =
      b.cols.length := by
    rw [List.length_map, List.length_map]
  have hzip := range_map_getD_zip (batchColumns b)
    ((b.cols.map (fun c => c.2)).map (fun c => c.getD i default)) "" default
    (by rw [hlen1, hlen2])
  rw [hzip]
  rw [batchColumns, List.map_map]
  rw [List.zip_map']
  have hrec : b.cols.map (fun x => (x.1, ((fun c => c.getD i default) ∘ fun c => c.2) x)) =
      b.cols.map (fun c => (c.1, c.2.getD i default)) := rfl
  rw [hrec]
  apply pyDictOf_nodup
  rw [List.map_map]
  have : (fun c : String × List α => ((c.1, c.2.getD i default) : String × α).1) =
      fun c : String × List α => c.1 := rfl
  rw [show ((fun kv : String × α => kv.1) ∘ fun c : String × List α =>
    (c.1, c.2.getD i default)) = fun c : String × List α => c.1 from rfl]
  exact hnd

/- ### Schema derivation: `_get_schema_dict` and friends

`csv.reader` (Python standard library) and `run_in_external_process`
(repository code in `source_s3/utils.py`, not under `src/`) are external
to the verified sources; they are modelled from the spec as noted. -/

structure CsvFormat where
  delimiter : Char
  quote_char : Char
  infer_datatypes : Bool

inductive PaType where
  | string
  | int64
  | float64
deriving DecidableEq

/-- Python `file.readline()`: the bytes up to and including the first
line terminator (or everything when there is none). -/
def readline : List Char → List Char
  | [] => []
  | c :: cs => if c = '\n' then [c] else c :: readline cs

/-- Modelled from the spec (§4.3 "split it by the configured
delimiter/quote rules"): the Python `csv` module is outside the
repository, so its single-line splitting is modelled directly — the
quote character toggles quoted mode, delimiters inside quotes are
literal, and line terminators are consumed by the reader. -/
def csvSplitAux (delim quote : Char) : Bool → List Char → List Char → List (List Char)
  | _, cur, [] => [cur.reverse]
  | false, cur, c :: rest =>
    if c = delim then cur.reverse :: csvSplitAux delim quote false [] rest
    else if c = quote then csvSplitAux delim quote true cur rest
    else if c = '\n' ∨ c = '\r' then csvSplitAux delim quote false cur rest
    else csvSplitAux delim quote false (c :: cur) rest
  | true, cur, c :: rest =>
    if c = quote then csvSplitAux delim quote false cur rest
    else csvSplitAux delim quote true (c :: cur) rest

def csvSplit (delim quote : Char) (line : List Char) : List (List Char) :=
  csvSplitAux delim quote false [] line

def isPySpace (c : Char) : Bool := c = ' ' ∨ c = '\t' ∨ c = '\n' ∨ c = '\r'

/-- Python `str.strip()`. -/
def pyStrip (s : List Char) : List Char :=
  ((s.dropWhile isPySpace).reverse.dropWhile isPySpace).reverse

/-- `CsvParser._get_schema_dict_without_inference`: read only the first
line, split it with the configured delimiter and quote character, and
map every stripped field name to the pyarrow string type. -/
def get_schema_dict_without_inference (fmt : CsvFormat) (file : List Char) :
    List (List Char × PaType) :=
  let field_names := csvSplit fmt.delimiter fmt.quote_char (readline file)
  pyDictOf (field_names.map (fun f => (pyStrip f, PaType.string)))

/-- Modelled from the spec (§4.3, §5): `run_in_external_process` lives in
`source_s3/utils.py`, outside `src/`; per the spec it runs the isolated
inference under an initial timeout, escalates once up to the
`max_timeout` ceiling, and otherwise fails with a timeout error.  The
job is abstracted by its wall-clock duration and its result. -/
def run_in_external_process {α : Type} (timeout max_timeout duration : ℕ)
    (result : α) : Except String α :=
  if duration ≤ timeout then .ok result
  else if duration ≤ max_timeout then .ok result
  else .error "infer schema process timed out"

/-- `CsvParser._get_schema_dict`: dispatch on `infer_datatypes`; the
inference path calls `run_in_external_process` with `timeout=4` and
`max_timeout=60` as in the source. -/
def get_schema_dict (fmt : CsvFormat) (file : List Char)
    (infer_duration : ℕ) (infer_result : List (List Char × PaType)) :
    Except String (List (List Char × PaType)) :=
  if fmt.infer_datatypes then
    run_in_external_process 4 60 infer_duration infer_result
  else
    .ok (get_schema_dict_without_inference fmt file)

/-- `infer_schema_process` (inner function of `get_inferred_schema`): the
pyarrow engine call in its `try` block is abstracted as a fallible
function; an exception becomes the second component of the returned
pair instead of being raised. -/
def infer_schema_process {σ ε α : Type} (engine : σ → Except ε α)
    (file_sample : σ) : Option α × Option ε :=
  match engine file_sample with
  | .error e => (none, some e)
  | .ok schema_dict => (some schema_dict, none)

/- ### Dict lemmas for the schema map -/

theorem mem_pyUpsert {κ α : Type} [DecidableEq κ] {x : κ × α} {k : κ} {v : α}
    {d : List (κ × α)} (h : x ∈ pyUpsert k v d) : x = (k, v) ∨ x ∈ d := by
  induction d with
  | nil => simpa [pyUpsert] using h
  | cons kv t ih =>
    obtain ⟨k2, v2⟩ := kv
    rw [pyUpsert] at h
    by_cases hk : k2 = k
    · rw [if_pos hk] at h
      rcases List.mem_cons.mp h with h1 | h1
      · exact Or.inl h1
      · exact Or.inr (by simp [h1])
    · rw [if_neg hk] at h
      rcases List.mem_cons.mp h with h1 | h1
      · exact Or.inr (by simp [h1])
      · rcases ih h1 with h2 | h2
        · exact Or.inl h2
        · exact Or.inr (by simp [h2])

theorem mem_pyDictOf_aux {κ α : Type} [DecidableEq κ] (l : List (κ × α)) :
    ∀ (acc : List (κ × α)) (x : κ × α),
    x ∈ l.foldl (fun d kv => pyUpsert kv.1 kv.2 d) acc → x ∈ acc ∨ x ∈ l := by
  induction l with
  | nil => intro acc x h2; exact Or.inl h2
  | cons kv t ih =>
    intro acc x h2
    rw [List.foldl_cons] at h2
    rcases ih (pyUpsert kv.1 kv.2 acc) x h2 with h3 | h3
    · rcases mem_pyUpsert h3 with h4 | h4
      · exact Or.inr (by simp [h4])
      · exact Or.inl h4
    · exact Or.inr (by simp [h3])

theorem mem_pyDictOf {κ α : Type} [DecidableEq κ] {x : κ × α} {l : List (κ × α)}
    (h : x ∈ pyDictOf l) : x ∈ l := by
  rcases mem_pyDictOf_aux l [] x h with h1 | h1
  · simp at h1
  · exact h1

theorem key_mem_pyUpsert_self {κ α : Type} [DecidableEq κ] (k : κ) (v : α)
    (d : List (κ × α)) : k ∈ (pyUpsert k v d).map (fun kv => kv.1) := by
  induction d with
  | nil => simp [pyUpsert]
  | cons kv t ih =>
    obtain ⟨k2, v2⟩ := kv
    rw [pyUpsert]
    by_cases hk : k2 = k
    · rw [if_pos hk]; simp
    · rw [if_neg hk]
      simp only [List.map_cons, List.mem_cons]
      exact Or.inr ih

theorem key_mem_pyUpsert_other {κ α : Type} [DecidableEq κ] {k2 k : κ} {v : α}
    {d : List (κ × α)} (h : k2 ∈ d.map (fun kv => kv.1)) :
    k2 ∈ (pyUpsert k v d).map (fun kv => kv.1) := by
  induction d with
  | nil => simp at h
  | cons kv t ih =>
    obtain ⟨k3, v3⟩ := kv
    rw [pyUpsert]
    by_cases hk : k3 = k
    · rw [if_pos hk]
      simp only [List.map_cons, List.mem_cons] at h ⊢
      rcases h with h1 | h1
      · exact Or.inl (by rw [h1, hk])
      · exact Or.inr h1
    · rw [if_neg hk]
      simp only [List.map_cons, List.mem_cons] at h ⊢
      rcases h with h1 | h1
      · exact Or.inl h1
      · exact Or.inr (ih h1)

theorem key_mem_pyDictOf_aux {κ α : Type} [DecidableEq κ] (l : List (κ × α)) :
    ∀ (acc : List (κ × α)) (k : κ),
    k ∈ acc.map (fun kv => kv.1) ∨ k ∈ l.map (fun kv => kv.1) →
    k ∈ (l.foldl (fun d kv => pyUpsert kv.1 kv.2 d) acc).map (fun kv => kv.1) := by
  induction l with
  | nil =>
    intro acc k h2
    rcases h2 with h3 | h3
    · exact h3
    · simp at h3
  | cons kv t ih =>
    intro acc k h2
    rw [List.foldl_cons]
    apply ih
    rcases h2 with h3 | h3
    · exact Or.inl (key_mem_pyUpsert_other h3)
    · simp only [List.map_cons, List.mem_cons] at h3
      rcases h3 with h4 | h4
      · rw [h4]
        exact Or.inl (key_mem_pyUpsert_self kv.1 kv.2 acc)
      · exact Or.inr h4

theorem key_mem_pyDictOf {κ α : Type} [DecidableEq κ] {k : κ} {l : List (κ × α)}
    (h : k ∈ l.map (fun kv => kv.1)) :
    k ∈ (pyDictOf l).map (fun kv => kv.1) :=
  key_mem_pyDictOf_aux l [] k (Or.inr h)

/- ### Claim theorems -/

/-- C1: for every well-formed batch stream (distinct column names, all
columns of a batch equally long, at least one column), the record
streamer driving `__read_stream_by_chunks` yields exactly one record per
data row, batches in stream order and rows in batch order, and record
`i` lists every column name (in schema order) mapped to that column's
`i`-th value. -/
theorem C1_record_streamer_transposes {α : Type} [Inhabited α]
    (batches : List (PyBatch α))
    (hwf : ∀ b ∈ batches, (b.cols.map (fun c => c.1)).Nodup ∧ b.cols ≠ [] ∧
      ∀ c ∈ b.cols, c.2.length = nRows b) :
    read_stream_by_chunks batches = batches.flatMap (fun b =>
      (List.range (nRows b)).map
        (fun i => b.cols.map (fun c => (c.1, c.2.getD i default)))) := by
  unfold read_stream_by_chunks
  have haux : ∀ (bs : List (PyBatch α)),
      (∀ b ∈ bs, (b.cols.map (fun c => c.1)).Nodup ∧ b.cols ≠ [] ∧
        ∀ c ∈ b.cols, c.2.length = nRows b) →
      bs.flatMap batchRecords = bs.flatMap (fun b =>
        (List.range (nRows b)).map
          (fun i => b.cols.map (fun c => (c.1, c.2.getD i default)))) := by
    intro bs
    induction bs with
    | nil => intro _; rfl
    | cons b bs2 ih =>
      intro hwf2
      have hb := hwf2 b (by simp)
      rw [List.flatMap_cons, List.flatMap_cons]
      rw [batchRecords_eq b hb.1 hb.2.1 hb.2.2]
      rw [ih (fun b2 hb2 => hwf2 b2 (by simp [hb2]))]
  exact haux batches hwf

/-- The two-row two-column example batch used as a concrete witness. -/
def batchEx : PyBatch String := ⟨[("id", ["1", "2"]), ("name", ["Alice", "Bob"])]⟩

/-- Witness for C1 at a concrete two-row batch. -/
theorem C1_record_streamer_transposes_witness :
    (∀ b ∈ [batchEx], (b.cols.map (fun c => c.1)).Nodup ∧ b.cols ≠ [] ∧
      ∀ c ∈ b.cols, c.2.length = nRows b) ∧
    read_stream_by_chunks [batchEx] = [batchEx].flatMap (fun b =>
      (List.range (nRows b)).map
        (fun i => b.cols.map (fun c => (c.1, c.2.getD i default)))) :=
  ⟨by decide, C1_record_streamer_transposes [batchEx] (by decide)⟩

/-- C2 counterexample: on a stream whose final line has no trailing
terminator (`"h\n"`, a 50 MiB+ run of `'a'`, then `"bbb"`), the splitter
succeeds but the reassembled chunks are not the original bytes — the
final 3 bytes are silently dropped by the boundary scan at end of
stream, so the claim as stated (including the no-trailing-newline case)
is false. -/
theorem C2_chunk_reassembly_counterexample :
    create_chunk exC2 = .ok [exC2chunk1, [104]] ∧
    reassemble 1 [exC2chunk1, [104]] ≠ exC2 := by
  refine ⟨create_chunk_exC2, ?_⟩
  intro hco
  have h1 : (reassemble 1 [exC2chunk1, [104]]).length = 52429824 := by
    rw [reassemble]
    rw [show ([[104]] : List (List ℕ)).map (fun c2 => c2.drop 1) = [[]] from rfl]
    rw [show ([[]] : List (List ℕ)).flatten = [] from rfl, List.append_nil]
    rw [exC2chunk1, List.length_cons, List.length_cons, List.length_append,
      rep_length, rep_length]
    norm_num
  have h2 : exC2.length = 52429827 := by
    rw [exC2, List.length_cons, List.length_cons, List.length_append,
      rep_length]
    norm_num
  rw [hco, h2] at h1
  exact absurd h1 (by norm_num)

/-- C2 (amended): for every source stream that contains a record
terminator, whose remaining bytes after the header scan end with a
record terminator, and whose header scan consumes less than the
50 MiB limit: if `__create_chunk` succeeds, then no yielded chunk ends
with a truncated record (every chunk after the first starts with the
header and its body is empty or begins at a record terminator), and
concatenating the chunks (dropping the header re-prepended to each
chunk after the first) reproduces the original bytes exactly.  The
original claim's "including when the source's final line has no
trailing newline" is dropped: that case loses bytes (see the
counterexample). -/
theorem C2_chunk_reassembly_amended (stream h t r : List ℕ) (cs : List (List ℕ))
    (hscan : find_line_end stream = .ok (h, t, r))
    (hmem : 10 ∈ stream)
    (htrail : r = [] ∨ r.getLast? = some 10)
    (hsize : h.length + t.length < MAX_CHUNK_SIZE)
    (hok : create_chunk stream = .ok cs) :
    cs ≠ [] ∧
    reassemble h.length cs = stream ∧
    (∀ c ∈ cs.tail, c.take h.length = h) ∧
    (∀ c ∈ cs.tail, c.drop h.length = [] ∨ (c.drop h.length).head? = some 10) := by
  rw [create_chunk_eq, hscan] at hok
  dsimp only at hok
  obtain ⟨b0, cs2, hcs, hflat, hpre, hbody⟩ :=
    create_chunk_loop_spec ((r.length + 1) + 1) h t r [] cs hok
      (fun _ => hsize) htrail
  have hshape := scan_shape (stream.length + 1) [] stream h t r hscan rfl
    (by simpa using hmem)
  rw [List.nil_append] at hshape
  obtain ⟨hsplit, -, -⟩ := hshape
  refine ⟨by rw [hcs]; simp, ?_, ?_, ?_⟩
  · rw [hcs, reassemble]
    rw [hcs, List.map_cons, List.flatten_cons] at hflat
    rw [show h ++ t ++ b0 = h ++ (t ++ b0) from by simp [List.append_assoc]] at hflat
    rw [drop_len_append] at hflat
    rw [← hsplit, ← hflat]
    simp [List.append_assoc]
  · intro c hc
    rw [hcs] at hc
    obtain ⟨b, hb⟩ := hpre c (by simpa using hc)
    rw [hb]
    exact take_len_append h b
  · intro c hc
    rw [hcs] at hc
    exact hbody c (by simpa using hc)

/-- Witness for C2 (amended) at the 4-byte stream `"h\na\n"`. -/
theorem C2_chunk_reassembly_amended_witness :
    (find_line_end [104, 10, 97, 10] = .ok ([104], [10, 97, 10], []) ∧
     10 ∈ ([104, 10, 97, 10] : List ℕ) ∧
     (([] : List ℕ) = [] ∨ ([] : List ℕ).getLast? = some 10) ∧
     ([104] : List ℕ).length + ([10, 97, 10] : List ℕ).length < MAX_CHUNK_SIZE ∧
     create_chunk [104, 10, 97, 10] = .ok [[104, 10, 97, 10]]) ∧
    (([[104, 10, 97, 10]] : List (List ℕ)) ≠ [] ∧
     reassemble ([104] : List ℕ).length [[104, 10, 97, 10]] = [104, 10, 97, 10] ∧
     (∀ c ∈ ([[104, 10, 97, 10]] : List (List ℕ)).tail,
       c.take ([104] : List ℕ).length = [104]) ∧
     (∀ c ∈ ([[104, 10, 97, 10]] : List (List ℕ)).tail,
       c.drop ([104] : List ℕ).length = [] ∨
       (c.drop ([104] : List ℕ).length).head? = some 10)) :=
  ⟨⟨rfl, by decide, Or.inl rfl, by decide, rfl⟩,
   C2_chunk_reassembly_amended [104, 10, 97, 10] [104] [10, 97, 10] []
     [[104, 10, 97, 10]] rfl (by decide) (Or.inl rfl) (by decide) rfl⟩

/-- A 50 MiB line followed by its terminator: the unterminated run is
exactly `MAX_CHUNK_SIZE`, not more. -/
def exC3 : List ℕ := rep 52428800 [97] ++ [10]

theorem exC3_length : exC3.length = 52428801 := by
  rw [exC3, List.length_append, rep_length]
  norm_num

theorem exC3_find : find10 exC3 = some 52428800 := by
  rw [exC3, find10_append_none _ _ (find10_rep97 _)]
  rw [show find10 [10] = some 0 by norm_num [find10]]
  rw [Option.map_some']
  show some (0 + (rep 52428800 [97]).length) = some 52428800
  rw [rep_length]
  norm_num

theorem exC3_run : unterminatedRun exC3 = 52428800 :=
  unterminatedRun_of_find10 exC3 52428800 exC3_find

/-- C3 counterexample: on a stream whose first line is exactly 50 MiB
long (50 MiB of `'a'` then `\n`), the scan raises the size-limit error
even though the unterminated run does not exceed 50 MiB — the claim's
strict "exceeds" boundary is off by one. -/
theorem C3_size_limit_counterexample :
    find_line_end exC3 =
      .error "incorrect CSV file because same line is more than 50Mb" ∧
    ¬ MAX_CHUNK_SIZE < unterminatedRun exC3 := by
  constructor
  · have hex : ∃ e, find_line_end_loop (exC3.length + 1) [] exC3 = .error e := by
      apply (scan_char (exC3.length + 1) [] exC3 (by omega) rfl (by simp)
        (Or.inl (by simp))).mpr
      rw [exC3_run, exC3_length]
      constructor
      · simp [MAX_CHUNK_SIZE]
      · simp [MAX_CHUNK_SIZE]
    obtain ⟨e, he⟩ := hex
    have hmsg := scan_err_msg (exC3.length + 1) [] exC3 e (by omega) he
    rw [hmsg] at he
    exact he
  · rw [exC3_run]
    norm_num [MAX_CHUNK_SIZE]

/-- C3 (amended): `__find_line_end` fails with the size-limit error if
and only if the accumulated run of bytes without a record terminator
reaches at least 50 MiB (the first terminator, if any, sits at index
50 MiB or later) and the stream extends beyond 50 MiB; in particular a
single record line of 50 MiB or more with no terminator in reach raises
this error rather than growing the buffer unboundedly. -/
theorem C3_size_limit_amended (s : List ℕ) :
    (∃ e, find_line_end s = .error e) ↔
      (MAX_CHUNK_SIZE ≤ unterminatedRun s ∧ MAX_CHUNK_SIZE < s.length) := by
  rw [show find_line_end s = find_line_end_loop (s.length + 1) [] s from rfl]
  have h := scan_char (s.length + 1) [] s (by omega) rfl (by simp) (Or.inl (by simp))
  simpa using h

/-- C4: with datatype inference disabled, schema derivation returns the
no-inference schema built from the first line only (streams with the
same first line get the same schema), every entry's type is the string
type regardless of the data rows, and the keys are exactly the stripped
field names of the first line split by the configured delimiter and
quote character. -/
theorem C4_schema_without_inference (fmt : CsvFormat) (file file2 : List Char)
    (d : ℕ) (r : List (List Char × PaType))
    (hinf : fmt.infer_datatypes = false)
    (hline : readline file2 = readline file) :
    get_schema_dict fmt file d r = .ok (get_schema_dict_without_inference fmt file) ∧
    get_schema_dict fmt file2 d r = get_schema_dict fmt file d r ∧
    (∀ kv ∈ get_schema_dict_without_inference fmt file, kv.2 = PaType.string ∧
      kv.1 ∈ (csvSplit fmt.delimiter fmt.quote_char (readline file)).map pyStrip) ∧
    (∀ f ∈ csvSplit fmt.delimiter fmt.quote_char (readline file),
      (pyStrip f, PaType.string) ∈ get_schema_dict_without_inference fmt file) := by
  have hneg : ¬ (fmt.infer_datatypes = true) := by rw [hinf]; simp
  refine ⟨?_, ?_, ?_, ?_⟩
  · rw [get_schema_dict, if_neg hneg]
  · rw [get_schema_dict, get_schema_dict, if_neg hneg, if_neg hneg]
    rw [get_schema_dict_without_inference, get_schema_dict_without_inference, hline]
  · intro kv hkv
    rw [get_schema_dict_without_inference] at hkv
    have hmem := mem_pyDictOf hkv
    obtain ⟨f, hf, hfe⟩ := List.mem_map.mp hmem
    constructor
    · rw [← hfe]
    · rw [← hfe]
      exact List.mem_map_of_mem pyStrip hf
  · intro f hf
    rw [get_schema_dict_without_inference]
    have hkey : pyStrip f ∈ ((csvSplit fmt.delimiter fmt.quote_char
        (readline file)).map (fun f2 => (pyStrip f2, PaType.string))).map
        (fun kv => kv.1) := by
      rw [List.map_map]
      exact List.mem_map_of_mem _ hf
    have hkey2 := key_mem_pyDictOf hkey
    obtain ⟨kv, hkv, hkve⟩ := List.mem_map.mp hkey2
    obtain ⟨f2, -, hf2e⟩ := List.mem_map.mp (mem_pyDictOf hkv)
    have hsnd : kv.2 = PaType.string := by rw [← hf2e]
    have hkv2 : kv = (pyStrip f, PaType.string) := by
      obtain ⟨kv1, kv2⟩ := kv
      simp only at hkve hsnd
      rw [hkve, hsnd]
    rw [← hkv2]
    exact hkv

/-- Witness for C4 at the file `"a, b\nx"` (second stream `"a, b\nyz"`
shares the first line). -/
theorem C4_schema_without_inference_witness :
    ((⟨',', '"', false⟩ : CsvFormat).infer_datatypes = false ∧
     readline ['a', ',', ' ', 'b', '\n', 'y', 'z'] =
       readline ['a', ',', ' ', 'b', '\n', 'x']) ∧
    (get_schema_dict ⟨',', '"', false⟩ ['a', ',', ' ', 'b', '\n', 'x'] 0 [] =
       .ok (get_schema_dict_without_inference ⟨',', '"', false⟩
         ['a', ',', ' ', 'b', '\n', 'x']) ∧
     get_schema_dict ⟨',', '"', false⟩ ['a', ',', ' ', 'b', '\n', 'y', 'z'] 0 [] =
       get_schema_dict ⟨',', '"', false⟩ ['a', ',', ' ', 'b', '\n', 'x'] 0 [] ∧
     (∀ kv ∈ get_schema_dict_without_inference ⟨',', '"', false⟩
         ['a', ',', ' ', 'b', '\n', 'x'], kv.2 = PaType.string ∧
       kv.1 ∈ (csvSplit ',' '"'
         (readline ['a', ',', ' ', 'b', '\n', 'x'])).map pyStrip) ∧
     (∀ f ∈ csvSplit ',' '"' (readline ['a', ',', ' ', 'b', '\n', 'x']),
       (pyStrip f, PaType.string) ∈ get_schema_dict_without_inference
         ⟨',', '"', false⟩ ['a', ',', ' ', 'b', '\n', 'x'])) :=
  ⟨⟨rfl, rfl⟩,
   C4_schema_without_inference ⟨',', '"', false⟩ ['a', ',', ' ', 'b', '\n', 'x']
     ['a', ',', ' ', 'b', '\n', 'y', 'z'] 0 [] rfl rfl⟩

/-- C5: the public `stream_records(file, file_info)` yields exactly the
records of the unconditional direct-read path `__read_stream_by_chunks`
for every file and every file descriptor — it does not depend on the
descriptor's size or key at all, so the large-file chunking branch
after the unconditional `return` is unreachable. -/
theorem C5_stream_records_direct {α : Type} [Inhabited α]
    (engine : List ℕ → List (PyBatch α)) (file : List ℕ) (fi fi2 : FileInfo) :
    stream_records engine file fi = read_stream_by_chunks (engine file) ∧
    stream_records engine file fi = stream_records engine file fi2 :=
  ⟨rfl, rfl⟩

/-- C6: with inference enabled, `_get_schema_dict` runs the isolated
inference under the spec's timeout envelope (initial timeout 4 s,
escalated once up to the 60 s ceiling): a job whose duration fits the
envelope returns its schema, and a longer one fails with the timeout
error — never an empty schema.  (`run_in_external_process` is modelled
from the spec; `timeout=4` and `max_timeout=60` are the source's
arguments.) -/
theorem C6_inference_timeout_envelope (fmt : CsvFormat) (file : List Char)
    (d : ℕ) (r : List (List Char × PaType)) (hinf : fmt.infer_datatypes = true) :
    (d ≤ 60 ∧ get_schema_dict fmt file d r = .ok r) ∨
    (60 < d ∧ get_schema_dict fmt file d r =
      .error "infer schema process timed out") := by
  rw [get_schema_dict, if_pos hinf, run_in_external_process]
  by_cases h4 : d ≤ 4
  · exact Or.inl ⟨by omega, by rw [if_pos h4]⟩
  · by_cases h60 : d ≤ 60
    · exact Or.inl ⟨h60, by rw [if_neg h4, if_pos h60]⟩
    · exact Or.inr ⟨by omega, by rw [if_neg h4, if_neg h60]⟩

/-- Witness for C6 at a 100 s job: the call times out. -/
theorem C6_inference_timeout_envelope_witness :
    (⟨',', '"', true⟩ : CsvFormat).infer_datatypes = true ∧
    ((100 ≤ 60 ∧ get_schema_dict ⟨',', '"', true⟩ [] 100 [] = .ok []) ∨
     (60 < 100 ∧ get_schema_dict ⟨',', '"', true⟩ [] 100 [] =
       .error "infer schema process timed out")) :=
  ⟨rfl, C6_inference_timeout_envelope ⟨',', '"', true⟩ [] 100 [] rfl⟩

/-- The 120 MiB scenario: `__create_chunk` yields exactly 3 chunks, but
the first chunk is 52430847 bytes — more than 50 MiB — so the claim's
"each yielded chunk's total size is at most 50 MiB" is false. -/
theorem C7_chunk_size_counterexample :
    exC7.length = 125829120 ∧
    create_chunk exC7 = .ok [chunkA, chunkA, chunkB] ∧
    MAX_CHUNK_SIZE < chunkA.length := by
  refine ⟨?_, create_chunk_exC7, ?_⟩
  · rw [exC7, rep_length, P7_length]
  · rw [chunkA, List.length_append, List.length_append, List.length_append,
      rep_length, rep_length, P7_length]
    norm_num [MAX_CHUNK_SIZE]

/-- C7 (amended): the 120 MiB input (1024-byte terminator-ended lines)
split with the 50 MiB maximum yields exactly 3 chunks, each beginning
with the original header line; the first two chunks are 52430847 bytes
each — exceeding 50 MiB by 2047 bytes — and every chunk's size is at
most 50 MiB + 2047 bytes. -/
theorem C7_three_chunks_amended :
    exC7.length = 125829120 ∧
    create_chunk exC7 = .ok [chunkA, chunkA, chunkB] ∧
    chunkA.take 1024 = P7 ∧ chunkB.take 1024 = P7 ∧
    chunkA.length = 52430847 ∧ chunkB.length = 20969472 ∧
    chunkA.length ≤ MAX_CHUNK_SIZE + 2047 ∧
    chunkB.length ≤ MAX_CHUNK_SIZE + 2047 := by
  have hA : chunkA.length = 52430847 := by
    rw [chunkA, List.length_append, List.length_append, List.length_append,
      rep_length, rep_length, P7_length]
    norm_num
  have hB : chunkB.length = 20969472 := by
    rw [chunkB, List.length_append, List.length_append,
      rep_length, rep_length, P7_length]
    norm_num
  refine ⟨?_, create_chunk_exC7, ?_, ?_, hA, hB, ?_, ?_⟩
  · rw [exC7, rep_length, P7_length]
  · rw [chunkA, show rep 1023 [97] ++ [10] ++ rep 51200 P7 ++ rep 1023 [97] =
      P7 ++ (rep 51200 P7 ++ rep 1023 [97]) from by rw [P7]; simp [List.append_assoc]]
    exact take_eq_of_len _ _ _ P7_length
  · rw [chunkB, show rep 1023 [97] ++ [10] ++ rep 20477 P7 =
      P7 ++ rep 20477 P7 from by rw [P7]]
    exact take_eq_of_len _ _ _ P7_length
  · rw [hA]; norm_num [MAX_CHUNK_SIZE]
  · rw [hB]; norm_num [MAX_CHUNK_SIZE]

/-- C8: every exception of the engine call inside `infer_schema_process`
is returned as the pair `(None, original exception)` rather than
raised, preserving the original error's identity for the caller. -/
theorem C8_infer_schema_process_propagates {σ ε α : Type}
    (engine : σ → Except ε α) (file_sample : σ) (e : ε)
    (h : engine file_sample = .error e) :
    infer_schema_process engine file_sample = (none, some e) := by
  rw [infer_schema_process, h]

/-- Witness for C8 at an engine that always fails. -/
theorem C8_infer_schema_process_propagates_witness :
    (fun _ : ℕ => (Except.error "boom" : Except String ℕ)) 0 = .error "boom" ∧
    infer_schema_process (fun _ : ℕ => (Except.error "boom" : Except String ℕ)) 0 =
      (none, some "boom") :=
  ⟨rfl, C8_infer_schema_process_propagates _ 0 "boom" rfl⟩

/-- C9: a stream exhausted before any record terminator, within the
50 MiB limit, makes `__find_line_end` return the empty pair — signalling
exhaustion rather than raising an error. -/
theorem C9_scan_exhaustion (s : List ℕ) (h1 : 10 ∉ s)
    (h2 : s.length ≤ MAX_CHUNK_SIZE) :
    find_line_end s = .ok ([], [], []) :=
  scan_exhaust (s.length + 1) [] s (by omega)
    (by rw [List.nil_append]; exact (find10_eq_none_iff s).mpr h1)
    (by simpa using h2)

/-- Witness for C9 at the 2-byte terminator-free stream `"ab"`. -/
theorem C9_scan_exhaustion_witness :
    (10 ∉ ([97, 98] : List ℕ) ∧ ([97, 98] : List ℕ).length ≤ MAX_CHUNK_SIZE) ∧
    find_line_end [97, 98] = .ok ([], [], []) :=
  ⟨⟨by decide, by decide⟩, C9_scan_exhaustion [97, 98] (by decide) (by decide)⟩

/-- C10: on a stream with a record terminator within the size limit,
`__find_line_end` returns `(left, right)` with `left ++ right` exactly
the consumed bytes (the rest of the stream is untouched), no terminator
in `left`, and `right` beginning with the terminator byte. -/
theorem C10_scan_split (s : List ℕ) (h : 10 ∈ s.take MAX_CHUNK_SIZE) :
    ∃ left_part right_part rest2,
      find_line_end s = .ok (left_part, right_part, rest2) ∧
      left_part ++ right_part ++ rest2 = s ∧
      10 ∉ left_part ∧
      right_part.head? = some 10 := by
  obtain ⟨i, hi, hlt⟩ := find10_some_of_mem_take s MAX_CHUNK_SIZE h
  have hrun : unterminatedRun s = i := unterminatedRun_of_find10 s i hi
  cases hres : find_line_end s with
  | error e =>
    exfalso
    have hchar := scan_char (s.length + 1) [] s (by omega) rfl (by simp)
      (Or.inl (by simp))
    have hrhs := hchar.mp ⟨e, hres⟩
    rw [List.length_nil, Nat.zero_add, hrun] at hrhs
    omega
  | ok triple =>
    obtain ⟨l, r, rest2⟩ := triple
    have hshape := scan_shape (s.length + 1) [] s l r rest2 hres rfl
      (by simpa using List.take_subset MAX_CHUNK_SIZE s h)
    rw [List.nil_append] at hshape
    obtain ⟨hsp, hnone, hhead⟩ := hshape
    refine ⟨l, r, rest2, rfl, ?_, (find10_eq_none_iff l).mp hnone, hhead⟩
    rw [List.append_assoc]
    exact hsp

/-- Witness for C10 at the 3-byte stream `"a\nb"`. -/
theorem C10_scan_split_witness :
    10 ∈ (([97, 10, 98] : List ℕ)).take MAX_CHUNK_SIZE ∧
    (∃ left_part right_part rest2,
      find_line_end [97, 10, 98] = .ok (left_part, right_part, rest2) ∧
      left_part ++ right_part ++ rest2 = [97, 10, 98] ∧
      10 ∉ left_part ∧
      right_part.head? = some 10) :=
  ⟨by decide, C10_scan_split [97, 10, 98] (by decide)⟩

end CsvParser
